import Mathlib

/-
Verification of the xumx-sliCQ separation core (src/openunmix/model.py).

The development shallowly embeds the two modules of the source file:

* `Separator.forward` (model.py lines 185-243): chunked multi-target
  inference.  Waveform tensors `(samples, channels, time)` are embedded as
  functions `ℕ → ℕ → ℕ → ℚ`; torch `reshape` on contiguous tensors is
  embedded by explicit row-major flat-index arithmetic.  The per-target
  pipeline `insgt ∘ phasemix_sep ∘ (model ∘ complexnorm) ∘ nsgt` lives in
  openunmix/transforms.py and openunmix/filtering.py, which are not part of
  the sources under verification; following the spec's external-operator
  contract (the inverse transform returns exactly the requested number of
  samples) each target is embedded as an abstract segment transformer
  `(ℕ → ℕ → ℕ → ℚ) → (ℕ → ℕ → ℕ → ℚ)`.

* `OpenUnmix.forward` (model.py lines 81-115): the 3-D convolutional
  encoder-decoder.  Shapes are embedded by the torch output-size formulas
  for `Conv3d` / `ConvTranspose3d`; values are embedded with the encoder
  and decoder layers as abstract tensor transformers, while the
  reshape/permute/normalization steps of `forward` are embedded exactly.

* `freeze` / module state (model.py lines 74-79 and 178-183): embedded as
  explicit parameter lists with a `requiresGrad` flag and a `training`
  flag, following the torch `requires_grad` / `eval()` semantics.
-/

/-- Waveform-like tensor `(samples, channels, time) → value`. -/
abbrev T3 : Type := ℕ → ℕ → ℕ → ℚ

/-- Stacked tensor with four axes. -/
abbrev T4 : Type := ℕ → ℕ → ℕ → ℕ → ℚ

/-- Spectrogram-like tensor with five axes. -/
abbrev T5 : Type := ℕ → ℕ → ℕ → ℕ → ℕ → ℚ

/-- One registered target of the `Separator`: its name together with the
composite segment pipeline `insgt ∘ phasemix_sep ∘ model ∘ complexnorm ∘ nsgt`
(model.py lines 216-228), abstract because the transforms are external. -/
abbrev SepTarget : Type := String × (T3 → T3)

/-! ## Separator padding arithmetic (model.py lines 204-206) -/

/-- `np.ceil(N / d)` for natural `N`, `d` (model.py line 204). -/
def chunksCeil (N d : ℕ) : ℕ := (N + d - 1) / d

/-- `pad_last = int(chunks_ceil * seq_batch * chunk_size_samples) - N`
(model.py line 205). -/
def Separator.padLast (N B K : ℕ) : ℕ := chunksCeil N (B * K) * (B * K) - N

/-- Length of the padded waveform after `F.pad(audio, (0, pad_last))`
(model.py line 206). -/
def Separator.paddedLen (N B K : ℕ) : ℕ := N + Separator.padLast N B K

/-- Right-padding with zeros: `F.pad(audio, (0, pad_last))` keeps the first
`N` samples and appends zeros (model.py line 206). -/
def Separator.pad (N : ℕ) (audio : T3) : T3 :=
  fun s c t => if t < N then audio s c t else 0

theorem chunksCeil_mul_ge (N d : ℕ) (hd : 0 < d) : N ≤ chunksCeil N d * d := by
  cases N with
  | zero => exact Nat.zero_le _
  | succ n =>
    unfold chunksCeil
    have h1 : (n + 1 + d - 1) = n + d := by omega
    rw [h1, Nat.add_div_right n hd]
    have h2 := Nat.div_add_mod n d
    have h3 := Nat.mod_lt n hd
    set q := n / d
    set r := n % d
    calc n + 1 ≤ d * q + r + 1 := by omega
    _ ≤ (q + 1) * d := by nlinarith
    _ = _ := by ring

theorem chunksCeil_min (N d q : ℕ) (hd : 0 < d) (hq : N ≤ d * q) :
    chunksCeil N d * d ≤ d * q := by
  cases N with
  | zero =>
    unfold chunksCeil
    have : (0 + d - 1) / d = 0 := Nat.div_eq_of_lt (by omega)
    rw [this]; omega
  | succ n =>
    unfold chunksCeil
    have h1 : (n + 1 + d - 1) = n + d := by omega
    rw [h1, Nat.add_div_right n hd]
    have h2 : n / d < q := by
      rw [Nat.div_lt_iff_lt_mul hd]
      calc n < n + 1 := by omega
      _ ≤ d * q := hq
      _ = q * d := by ring
    calc (n / d + 1) * d ≤ q * d := Nat.mul_le_mul_right d (by omega)
    _ = d * q := by ring

theorem Separator.paddedLen_eq (N B K : ℕ) (h : 0 < B * K) :
    Separator.paddedLen N B K = chunksCeil N (B * K) * (B * K) := by
  have := chunksCeil_mul_ge N (B * K) h
  unfold Separator.paddedLen Separator.padLast
  omega

theorem Separator.paddedLen_dvd (N B K : ℕ) (h : 0 < B * K) :
    (B * K) ∣ Separator.paddedLen N B K := by
  rw [Separator.paddedLen_eq N B K h]
  exact Dvd.intro_left _ rfl

theorem Separator.le_paddedLen (N B K : ℕ) : N ≤ Separator.paddedLen N B K := by
  unfold Separator.paddedLen; omega

/-! ## Separator forward, shape level (model.py lines 185-243)

`Separator.forwardShape` follows the tensor shapes through `forward`:
right padding, the `reshape(-1, nb_samples*seq_batch, nb_channels,
chunk_size_samples)` (line 207, with torch's inferred-dimension rule: the
product of the stated sizes must be positive and divide the element count),
the loop producing one `(seq, channels, chunk, targets)` estimate per
super-segment (lines 211-232, nonempty because `torch.cat` of an empty
list raises, line 234), the `reshape(nb_samples, nb_channels, N+pad_last,
-1)` (line 235), the permute to `(samples, targets, channels, time)` (line
238) and the final crop `ests[..., :N]` (line 241). -/

/-- Shape of the result of `Separator.forward` on an input of shape
`(S, C, N)` with `seq_batch = B`, `chunk_size_samples = K` and `T`
registered targets; `none` when torch would raise. -/
def Separator.forwardShape (S C N B K T : ℕ) : Option (ℕ × ℕ × ℕ × ℕ) :=
  if 0 < B * K then
    let L := Separator.paddedLen N B K
    if 0 < S * B * C * K ∧ (S * B * C * K) ∣ (S * C * L) then
      let G := S * C * L / (S * B * C * K)
      if 0 < G then
        if 0 < S * C * L ∧ (S * C * L) ∣ (G * (S * B) * C * K * T) then
          some (S, G * (S * B) * C * K * T / (S * C * L), C, min N L)
        else none
      else none
    else none
  else none

/-! ## Separator forward, value level (model.py lines 185-243)

Row-major flat-index readers embed the two torch reshapes exactly. -/

/-- Read a contiguous `(·, C, L)` tensor at a flat row-major position:
coordinates are `(F / L / C, F / L % C, F % L)`. -/
def flat3 (C L : ℕ) (f : T3) : ℕ → ℚ :=
  fun F => f (F / L / C) (F / L % C) (F % L)

/-- Read a contiguous `(·, SB, C, K, T)` tensor at a flat row-major
position. -/
def flat5 (SB C K T : ℕ) (f : ℕ → T4) : ℕ → ℚ :=
  fun F => f (F / T / K / C / SB) (F / T / K / C % SB) (F / T / K % C) (F / T % K) (F % T)

/-- `audio_segs = audio.reshape(-1, nb_samples*seq_batch, nb_channels,
chunk_size_samples)` applied to the padded waveform (model.py lines
206-207): super-segment `g` is a `(S*B, C, K)` tensor read from the padded
`(S, C, L)` tensor through the flat index. -/
def Separator.audioSegs (S C N B K : ℕ) (audio : T3) : ℕ → T3 :=
  fun g i c k =>
    flat3 C (Separator.paddedLen N B K) (Separator.pad N audio)
      (((g * (S * B) + i) * C + c) * K + k)

/-- `seg_estimates = torch.zeros(audio_seg.shape + (nb_sources,))`
(model.py line 212). -/
def zeros4 : T4 := fun _ _ _ _ => 0

/-- `seg_estimates[..., j] = y` (model.py line 230): writing one target's
slot of the per-segment estimate tensor. -/
def writeSlot (est : T4) (j : ℕ) (y : T3) : T4 :=
  fun i c k j2 => if j2 = j then y i c k else est i c k j2

/-- The inner loop of `Separator.forward` (model.py lines 213-230):
`for j, (target_name, target_module) in enumerate(...)` runs each target's
pipeline on the segment and writes slot `j`. -/
def Separator.segEstimates (ts : List SepTarget) (seg : T3) : T4 :=
  (ts.foldl (fun acc t => (writeSlot acc.1 acc.2 (t.2 seg), acc.2 + 1)) (zeros4, 0)).1

/-- Flat row-major position of `(s, c, l)` inside the reassembled
`(S, C, N+pad_last)` layout (model.py line 235). -/
def Separator.flatPos (S C N B K : ℕ) (s c l : ℕ) : ℕ :=
  (s * C + c) * Separator.paddedLen N B K + l

/-- Value semantics of `Separator.forward` (model.py lines 185-243): the
output at `(sample s, target j, channel c, time l)` is obtained by reading
the concatenated per-segment estimates `(G, S*B, C, K, T)` at the flat
position of `(s, c, l, j)` in the `(S, C, N+pad_last, T)` reshape (line
235), then permuting to `(samples, targets, channels, time)` (line 238);
the crop `ests[..., :N]` (line 241) restricts valid `l` to `l < N` (the
shape is tracked by `Separator.forwardShape`). -/
def Separator.forwardVals (S C N B K : ℕ) (ts : List SepTarget) (audio : T3) : T4 :=
  fun s j c l =>
    flat5 (S * B) C K ts.length
      (fun g => Separator.segEstimates ts (Separator.audioSegs S C N B K audio g))
      (Separator.flatPos S C N B K s c l * ts.length + j)

/-! ## Separator.to_dict (model.py lines 245-267) -/

/-- Python `dict` lookup on an insertion-ordered association list;
`none` models a raised `KeyError`. -/
def dictLookup {α : Type} : List (String × α) → String → Option α
  | [], _ => none
  | (k, v) :: rest, n => if n = k then some v else dictLookup rest n

/-- The loop `for k, target in enumerate(self.target_models):
estimates_dict[target] = estimates[:, k, ...]` (model.py lines 256-258),
with the enumeration counter made explicit. -/
def Separator.toDictFrom (est : T4) : ℕ → List SepTarget → List (String × T3)
  | _, [] => []
  | k, t :: rest => (t.1, fun s c l => est s k c l) :: Separator.toDictFrom est (k + 1) rest

/-- `estimates_dict` built by `Separator.to_dict` before aggregation. -/
def Separator.toDict (ts : List SepTarget) (est : T4) : List (String × T3) :=
  Separator.toDictFrom est 0 ts

/-- The all-zero waveform tensor: broadcasting `torch.tensor(0.0)`
(model.py line 263). -/
def zero3 : T3 := fun _ _ _ => 0

/-- Elementwise tensor addition. -/
def addT3 (a b : T3) : T3 := fun s c l => a s c l + b s c l

/-- Look up every aggregation-group member in `estimates_dict`; `none` as
soon as one name is missing (the `KeyError` of model.py line 265). -/
def lookupAll (ed : List (String × T3)) : List String → Option (List T3)
  | [] => some []
  | n :: ns =>
    match dictLookup ed n with
    | none => none
    | some t =>
      match lookupAll ed ns with
      | none => none
      | some rest => some (t :: rest)

/-- The aggregation loop (model.py lines 261-266): each group key maps to
the running sum `new_estimates[key] = new_estimates[key] +
estimates_dict[target]` started from `torch.tensor(0.0)`. -/
def aggRun (ed : List (String × T3)) : List (String × List String) → Option (List (String × T3))
  | [] => some []
  | (key, ns) :: rest =>
    match lookupAll ed ns with
    | none => none
    | some slices =>
      match aggRun ed rest with
      | none => none
      | some out => some ((key, slices.foldl addT3 zero3) :: out)

/-- `Separator.to_dict(estimates, aggregate_dict)` (model.py lines
245-267): without an aggregate mapping it returns the per-target
association; with one, only the aggregated groups. -/
def Separator.to_dict (ts : List SepTarget) (est : T4)
    (agg : Option (List (String × List String))) : Option (List (String × T3)) :=
  let ed := Separator.toDict ts est
  match agg with
  | none => some ed
  | some a => aggRun ed a

/-- First index at which a name occurs in the registry's key list: the
slot `estimates[:, k, ...]` that `to_dict` associates to that name. -/
def targetIndex (n : String) : List String → ℕ
  | [] => 0
  | m :: rest => if n = m then 0 else targetIndex n rest + 1

/-! ## Helper lemmas about the segment loop and the flat readers -/

theorem segEstimates_foldAux (seg : T3) (i c k j : ℕ) :
    ∀ (ts : List SepTarget) (e : T4) (n : ℕ),
      ((ts.foldl (fun acc t => (writeSlot acc.1 acc.2 (t.2 seg), acc.2 + 1)) (e, n)).1) i c k j
        = if n ≤ j then
            (match ts[j - n]? with
             | some t => t.2 seg i c k
             | none => e i c k j)
          else e i c k j := by
  intro ts
  induction ts with
  | nil =>
    intro e n
    simp only [List.foldl_nil, List.getElem?_nil]
    split <;> rfl
  | cons t rest ih =>
    intro e n
    rw [List.foldl_cons]
    rw [ih (writeSlot e n (t.2 seg)) (n + 1)]
    rcases Nat.lt_trichotomy j n with hlt | heq | hgt
    · rw [if_neg (by omega), if_neg (by omega)]
      unfold writeSlot
      rw [if_neg (by omega)]
    · subst heq
      rw [if_neg (by omega), if_pos (le_refl j)]
      have h0 : j - j = 0 := by omega
      rw [h0]
      simp only [List.getElem?_cons_zero]
      unfold writeSlot
      rw [if_pos rfl]
    · rw [if_pos (by omega), if_pos (by omega)]
      have h1 : j - n = (j - (n + 1)) + 1 := by omega
      rw [h1]
      simp only [List.getElem?_cons_succ]
      unfold writeSlot
      rcases h2 : rest[j - (n + 1)]? with _ | t2
      · simp only []
        rw [if_neg (by omega)]
      · simp only []

theorem segEstimates_at (ts : List SepTarget) (seg : T3) (i c k j : ℕ) :
    Separator.segEstimates ts seg i c k j
      = (match ts[j]? with
         | some t => t.2 seg i c k
         | none => 0) := by
  unfold Separator.segEstimates
  rw [segEstimates_foldAux seg i c k j ts zeros4 0]
  rw [if_pos (Nat.zero_le j)]
  have h0 : j - 0 = j := by omega
  rw [h0]
  rcases ts[j]? with _ | t <;> rfl

theorem flat5_at (SB C K T : ℕ) (f : ℕ → T4) (P j : ℕ) (hj : j < T) :
    flat5 SB C K T f (P * T + j)
      = f (P / K / C / SB) (P / K / C % SB) (P / K % C) (P % K) j := by
  have hT : 0 < T := by omega
  unfold flat5
  have hdiv : (P * T + j) / T = P := by
    rw [mul_comm P T, Nat.mul_add_div hT, Nat.div_eq_of_lt hj]
    omega
  have hmod : (P * T + j) % T = j := by
    rw [mul_comm P T, Nat.mul_add_mod, Nat.mod_eq_of_lt hj]
  rw [hdiv, hmod]

/-! ## Claim C1 and C2: padding and length bookkeeping -/

/-- C1: for every input waveform of shape `(S, C, N)` with `N > 0` (and a
real waveform, `S, C ≥ 1`) and every valid configuration (`seq_batch ≥ 1`,
`chunk_size_samples ≥ 1`), `Separator.forward` succeeds and returns a
tensor of shape `(S, T, C, N)`: the time axis has length exactly `N`, all
internal right-padding being removed by the final crop. -/
theorem separator_forward_length_invariance
    (S C N B K T : ℕ) (hS : 0 < S) (hC : 0 < C) (hN : 0 < N) (hB : 0 < B) (hK : 0 < K) :
    Separator.forwardShape S C N B K T = some (S, T, C, N) := by
  have hd : 0 < B * K := Nat.mul_pos hB hK
  have hL : Separator.paddedLen N B K = chunksCeil N (B * K) * (B * K) :=
    Separator.paddedLen_eq N B K hd
  have hpos1 : 0 < S * B * C * K := by positivity
  have key1 : S * C * Separator.paddedLen N B K = S * B * C * K * chunksCeil N (B * K) := by
    rw [hL]; ring
  have hdvd1 : (S * B * C * K) ∣ (S * C * Separator.paddedLen N B K) :=
    ⟨chunksCeil N (B * K), key1⟩
  have hGval : S * C * Separator.paddedLen N B K / (S * B * C * K) = chunksCeil N (B * K) := by
    rw [key1]
    exact Nat.mul_div_cancel_left _ hpos1
  have hG0 : 0 < chunksCeil N (B * K) := by
    unfold chunksCeil
    exact (Nat.one_le_div_iff hd).mpr (by omega)
  have hLN : N ≤ Separator.paddedLen N B K := Separator.le_paddedLen N B K
  have hpos2 : 0 < S * C * Separator.paddedLen N B K := by
    have : 0 < Separator.paddedLen N B K := by omega
    positivity
  have key2 : chunksCeil N (B * K) * (S * B) * C * K * T
      = S * C * Separator.paddedLen N B K * T := by
    rw [hL]; ring
  have hdvd2 : (S * C * Separator.paddedLen N B K)
      ∣ (chunksCeil N (B * K) * (S * B) * C * K * T) := ⟨T, key2⟩
  have hTval : chunksCeil N (B * K) * (S * B) * C * K * T
      / (S * C * Separator.paddedLen N B K) = T := by
    rw [key2]
    exact Nat.mul_div_cancel_left _ hpos2
  unfold Separator.forwardShape
  rw [if_pos hd, if_pos ⟨hpos1, hdvd1⟩, hGval, if_pos hG0, if_pos ⟨hpos2, hdvd2⟩, hTval,
    min_eq_left hLN]

/-- Witness for C1 at `S = 1, C = 2, N = 5, B = 2, K = 3, T = 4`. -/
theorem separator_forward_length_invariance_witness :
    0 < 1 ∧ 0 < 2 ∧ 0 < 5 ∧ 0 < 2 ∧ 0 < 3
    ∧ Separator.forwardShape 1 2 5 2 3 4 = some (1, 4, 2, 5) :=
  ⟨by decide, by decide, by decide, by decide, by decide,
    separator_forward_length_invariance 1 2 5 2 3 4 (by decide) (by decide) (by decide)
      (by decide) (by decide)⟩

/-- C2: for `N` not a multiple of `chunk_size_samples`, the padded length
`N + pad_last` is the least multiple of `seq_batch * chunk_size_samples`
that is `≥ N`, the padding consists of zeros appended on the right only,
and the final crop removes exactly `pad_last` trailing samples. -/
theorem separator_padding_minimality
    (N B K : ℕ) (audio : T3) (hB : 0 < B) (hK : 0 < K) (hnm : ¬ (K ∣ N)) :
    Separator.paddedLen N B K = N + Separator.padLast N B K
    ∧ (B * K) ∣ Separator.paddedLen N B K
    ∧ N ≤ Separator.paddedLen N B K
    ∧ (∀ m, (B * K) ∣ m → N ≤ m → Separator.paddedLen N B K ≤ m)
    ∧ (∀ s c t, t < N → Separator.pad N audio s c t = audio s c t)
    ∧ (∀ s c t, N ≤ t → Separator.pad N audio s c t = 0)
    ∧ Separator.paddedLen N B K - min N (Separator.paddedLen N B K)
        = Separator.padLast N B K := by
  have hd : 0 < B * K := Nat.mul_pos hB hK
  refine ⟨rfl, Separator.paddedLen_dvd N B K hd, Separator.le_paddedLen N B K, ?_, ?_, ?_, ?_⟩
  · intro m hdvd hle
    obtain ⟨q, rfl⟩ := hdvd
    rw [Separator.paddedLen_eq N B K hd]
    exact chunksCeil_min N (B * K) q hd hle
  · intro s c t ht
    unfold Separator.pad
    rw [if_pos ht]
  · intro s c t ht
    unfold Separator.pad
    rw [if_neg (by omega)]
  · rw [min_eq_left (Separator.le_paddedLen N B K)]
    unfold Separator.paddedLen
    omega

/-- A concrete waveform used by witnesses. -/
def audioEx : T3 := fun _ _ t => t

/-- Witness for C2 at `N = 5, B = 2, K = 3` (5 is not a multiple of 3). -/
theorem separator_padding_minimality_witness :
    0 < 2 ∧ 0 < 3 ∧ ¬ ((3:ℕ) ∣ 5)
    ∧ (Separator.paddedLen 5 2 3 = 5 + Separator.padLast 5 2 3
       ∧ (2 * 3) ∣ Separator.paddedLen 5 2 3
       ∧ 5 ≤ Separator.paddedLen 5 2 3
       ∧ (∀ m, (2 * 3) ∣ m → 5 ≤ m → Separator.paddedLen 5 2 3 ≤ m)
       ∧ (∀ s c t, t < 5 → Separator.pad 5 audioEx s c t = audioEx s c t)
       ∧ (∀ s c t, 5 ≤ t → Separator.pad 5 audioEx s c t = 0)
       ∧ Separator.paddedLen 5 2 3 - min 5 (Separator.paddedLen 5 2 3)
           = Separator.padLast 5 2 3) :=
  ⟨by decide, by decide, by decide,
    separator_padding_minimality 5 2 3 audioEx (by decide) (by decide) (by decide)⟩

/-! ## Claim C3 and C8: target ordering and per-target independence -/

theorem forwardVals_at (S C N B K : ℕ) (ts : List SepTarget) (audio : T3)
    (s j c l : ℕ) (hj : j < ts.length) :
    Separator.forwardVals S C N B K ts audio s j c l
      = (match ts[j]? with
         | some t => t.2 (Separator.audioSegs S C N B K audio
               (Separator.flatPos S C N B K s c l / K / C / (S * B)))
             (Separator.flatPos S C N B K s c l / K / C % (S * B))
             (Separator.flatPos S C N B K s c l / K % C)
             (Separator.flatPos S C N B K s c l % K)
         | none => 0) := by
  unfold Separator.forwardVals
  rw [flat5_at (S * B) C K ts.length _ (Separator.flatPos S C N B K s c l) j hj]
  exact segEstimates_at ts _ _ _ _ j

theorem toDictFrom_keys (est : T4) :
    ∀ (ts : List SepTarget) (k : ℕ),
      (Separator.toDictFrom est k ts).map Prod.fst = ts.map Prod.fst := by
  intro ts
  induction ts with
  | nil => intro k; rfl
  | cons t rest ih =>
    intro k
    simp only [Separator.toDictFrom, List.map_cons, ih (k + 1)]

theorem toDictFrom_length (est : T4) :
    ∀ (ts : List SepTarget) (k : ℕ),
      (Separator.toDictFrom est k ts).length = ts.length := by
  intro ts
  induction ts with
  | nil => intro k; rfl
  | cons t rest ih =>
    intro k
    simp only [Separator.toDictFrom, List.length_cons, ih (k + 1)]

theorem dictLookup_toDictFrom (est : T4) :
    ∀ (ts : List SepTarget) (k j : ℕ) (tj : SepTarget),
      ts[j]? = some tj → (ts.map Prod.fst).Nodup →
      dictLookup (Separator.toDictFrom est k ts) tj.1
        = some (fun s c l => est s (k + j) c l) := by
  intro ts
  induction ts with
  | nil => intro k j tj hj _; simp at hj
  | cons t rest ih =>
    intro k j tj hj hnd
    simp only [List.map_cons, List.nodup_cons] at hnd
    rcases j with _ | j
    · simp only [List.getElem?_cons_zero, Option.some.injEq] at hj
      subst hj
      simp only [Separator.toDictFrom, dictLookup, Nat.add_zero]
      simp
    · simp only [List.getElem?_cons_succ] at hj
      have hmem : tj.1 ∈ rest.map Prod.fst :=
        List.mem_map_of_mem Prod.fst (List.getElem?_mem hj)
      have hne : tj.1 ≠ t.1 := by
        intro h
        rw [h] at hmem
        exact hnd.1 hmem
      simp only [Separator.toDictFrom, dictLookup, if_neg hne]
      rw [ih (k + 1) j tj hj hnd.2]
      have harith : k + 1 + j = k + (j + 1) := by omega
      rw [harith]

/-- C3: the output slot `j` of `Separator.forward` is exactly the estimate
the `j`-th registry target would produce on its own (a single-target run
with that target at slot 0), and `Separator.to_dict` without an aggregate
mapping returns exactly `nb_targets` keys — the registry names in order —
with the `j`-th name mapped to the slice `estimates[:, j, ...]`. -/
theorem separator_target_ordering_to_dict
    (S C N B K : ℕ) (ts : List SepTarget) (audio : T3) (est : T4)
    (j : ℕ) (tj : SepTarget) (hj : ts[j]? = some tj)
    (hnd : (ts.map Prod.fst).Nodup) :
    (∀ s c l, Separator.forwardVals S C N B K ts audio s j c l
        = Separator.forwardVals S C N B K [tj] audio s 0 c l)
    ∧ (Separator.toDict ts est).map Prod.fst = ts.map Prod.fst
    ∧ (Separator.toDict ts est).length = ts.length
    ∧ dictLookup (Separator.toDict ts est) tj.1 = some (fun s c l => est s j c l) := by
  have hjlen : j < ts.length := by
    by_contra h
    rw [List.getElem?_eq_none (by omega)] at hj
    cases hj
  refine ⟨?_, toDictFrom_keys est ts 0, toDictFrom_length est ts 0, ?_⟩
  · intro s c l
    rw [forwardVals_at S C N B K ts audio s j c l hjlen,
      forwardVals_at S C N B K [tj] audio s 0 c l (by simp)]
    simp only [hj, List.getElem?_cons_zero]
  · have := dictLookup_toDictFrom est ts 0 j tj hj hnd
    simpa using this

/-- Concrete targets used by witnesses. -/
def tgVocals : SepTarget := ("vocals", fun seg => seg)

/-- A second concrete target. -/
def tgDrums : SepTarget := ("drums", fun seg => fun i c k => seg i c k + 1)

/-- A third concrete target, sharing its name with `tgDrums`. -/
def tgOther : SepTarget := ("other", fun _ => fun _ _ _ => 0)

/-- Witness for C3 with the two-target registry `[vocals, drums]`, `j = 1`. -/
theorem separator_target_ordering_to_dict_witness :
    ([tgVocals, tgDrums] : List SepTarget)[1]? = some tgDrums
    ∧ (([tgVocals, tgDrums] : List SepTarget).map Prod.fst).Nodup
    ∧ ((∀ s c l, Separator.forwardVals 1 1 2 1 1 [tgVocals, tgDrums] audioEx s 1 c l
          = Separator.forwardVals 1 1 2 1 1 [tgDrums] audioEx s 0 c l)
       ∧ (Separator.toDict [tgVocals, tgDrums] (fun _ j _ _ => (j : ℚ))).map Prod.fst
           = ([tgVocals, tgDrums] : List SepTarget).map Prod.fst
       ∧ (Separator.toDict [tgVocals, tgDrums] (fun _ j _ _ => (j : ℚ))).length
           = ([tgVocals, tgDrums] : List SepTarget).length
       ∧ dictLookup (Separator.toDict [tgVocals, tgDrums] (fun _ j _ _ => (j : ℚ))) tgDrums.1
           = some (fun s c l => ((fun _ j _ _ => (j : ℚ)) : T4) s 1 c l)) :=
  ⟨rfl, by decide,
    separator_target_ordering_to_dict 1 1 2 1 1 [tgVocals, tgDrums] audioEx
      (fun _ j _ _ => (j : ℚ)) 1 tgDrums rfl (by decide)⟩

/-- C8: within one forward pass each target's output slice depends only on
that target's own pipeline — two runs whose registries agree everywhere
except at position `k` produce identical output slices at every `j ≠ k` —
and the write-back `seg_estimates[..., j] = y` leaves every other slot of
the per-segment estimate tensor unchanged (disjoint slices). -/
theorem separator_target_independence
    (S C N B K : ℕ) (ts1 ts2 : List SepTarget) (audio : T3) (k : ℕ)
    (hlen : ts1.length = ts2.length)
    (hoff : ∀ i, i ≠ k → ts1[i]? = ts2[i]?) :
    (∀ j s c l, j < ts1.length → j ≠ k →
        Separator.forwardVals S C N B K ts1 audio s j c l
          = Separator.forwardVals S C N B K ts2 audio s j c l)
    ∧ (∀ (est : T4) (j : ℕ) (y : T3) (i c2 k2 j2 : ℕ), j2 ≠ j →
        writeSlot est j y i c2 k2 j2 = est i c2 k2 j2) := by
  constructor
  · intro j s c l hjlen hne
    rw [forwardVals_at S C N B K ts1 audio s j c l hjlen,
      forwardVals_at S C N B K ts2 audio s j c l (by omega)]
    rw [hoff j hne]
  · intro est j y i c2 k2 j2 hne
    unfold writeSlot
    rw [if_neg hne]

/-- Witness for C8: registries `[vocals, drums]` and `[other, drums]`
differing only at `k = 0`. -/
theorem separator_target_independence_witness :
    ([tgVocals, tgDrums] : List SepTarget).length = ([tgOther, tgDrums] : List SepTarget).length
    ∧ (∀ i, i ≠ 0 → ([tgVocals, tgDrums] : List SepTarget)[i]?
          = ([tgOther, tgDrums] : List SepTarget)[i]?)
    ∧ ((∀ j s c l, j < ([tgVocals, tgDrums] : List SepTarget).length → j ≠ 0 →
          Separator.forwardVals 1 1 1 1 1 [tgVocals, tgDrums] audioEx s j c l
            = Separator.forwardVals 1 1 1 1 1 [tgOther, tgDrums] audioEx s j c l)
       ∧ (∀ (est : T4) (j : ℕ) (y : T3) (i c2 k2 j2 : ℕ), j2 ≠ j →
          writeSlot est j y i c2 k2 j2 = est i c2 k2 j2)) := by
  have h2 : ∀ i, i ≠ 0 → ([tgVocals, tgDrums] : List SepTarget)[i]?
      = ([tgOther, tgDrums] : List SepTarget)[i]? := by
    intro i hi
    rcases i with _ | i
    · exact absurd rfl hi
    · rcases i with _ | i <;> rfl
  exact ⟨rfl, h2,
    separator_target_independence 1 1 1 1 1 [tgVocals, tgDrums] [tgOther, tgDrums]
      audioEx 0 rfl h2⟩

/-! ## Claim C4 and C10: aggregation and missing-key behaviour of to_dict -/

theorem dictLookup_toDictFrom_index (est : T4) :
    ∀ (ts : List SepTarget) (k : ℕ) (n : String),
      n ∈ ts.map Prod.fst →
      dictLookup (Separator.toDictFrom est k ts) n
        = some (fun s c l => est s (k + targetIndex n (ts.map Prod.fst)) c l) := by
  intro ts
  induction ts with
  | nil => intro k n hn; simp at hn
  | cons t rest ih =>
    intro k n hn
    by_cases hh : n = t.1
    · simp only [Separator.toDictFrom, dictLookup, List.map_cons, targetIndex, if_pos hh]
      simp [Nat.add_zero]
    · have hmem : n ∈ rest.map Prod.fst := by
        simp only [List.map_cons, List.mem_cons] at hn
        tauto
      simp only [Separator.toDictFrom, dictLookup, List.map_cons, targetIndex,
        if_neg hh]
      rw [ih (k + 1) n hmem]
      have harith : k + 1 + targetIndex n (rest.map Prod.fst)
          = k + (targetIndex n (rest.map Prod.fst) + 1) := by omega
      rw [harith]

theorem lookupAll_toDict (ts : List SepTarget) (est : T4) :
    ∀ (ns : List String), (∀ n ∈ ns, n ∈ ts.map Prod.fst) →
      lookupAll (Separator.toDict ts est) ns
        = some (ns.map (fun n => fun s c l =>
            est s (targetIndex n (ts.map Prod.fst)) c l)) := by
  intro ns
  induction ns with
  | nil => intro _; rfl
  | cons n ns ih =>
    intro hcov
    have h1 : n ∈ ts.map Prod.fst := hcov n (List.mem_cons_self n ns)
    have h2 := dictLookup_toDictFrom_index est ts 0 n h1
    simp only [Nat.zero_add] at h2
    have h3 : dictLookup (Separator.toDict ts est) n
        = some (fun s c l => est s (targetIndex n (ts.map Prod.fst)) c l) := h2
    simp only [lookupAll, h3, List.map_cons,
      ih (fun m hm => hcov m (List.mem_cons_of_mem n hm))]

theorem foldl_addT3 :
    ∀ (l : List T3) (a : T3) (s c t : ℕ),
      (l.foldl addT3 a) s c t = a s c t + (l.map (fun f => f s c t)).sum := by
  intro l
  induction l with
  | nil => intro a s c t; simp
  | cons f l ih =>
    intro a s c t
    simp only [List.foldl_cons, List.map_cons, List.sum_cons]
    rw [ih (addT3 a f)]
    unfold addT3
    ring

/-- C4: with an aggregate mapping whose groups name only registered
targets, `Separator.to_dict` returns a fresh association whose keys are
exactly the group names, each group's tensor being the elementwise sum —
started from the additive identity `torch.tensor(0.0)` — of the
per-target slices `estimates[:, targetIndex, ...]` of its members; the
ungrouped per-target mapping is not part of the result. -/
theorem separator_to_dict_aggregation
    (ts : List SepTarget) (est : T4) (agg : List (String × List String))
    (hnd : (ts.map Prod.fst).Nodup)
    (hcov : ∀ p ∈ agg, ∀ n ∈ p.2, n ∈ ts.map Prod.fst) :
    Separator.to_dict ts est (some agg)
        = some (agg.map (fun p => (p.1, fun s c l =>
            (p.2.map (fun n => est s (targetIndex n (ts.map Prod.fst)) c l)).sum)))
    ∧ (agg.map (fun p => (p.1, fun s c l =>
        (p.2.map (fun n => est s (targetIndex n (ts.map Prod.fst)) c l)).sum))).map Prod.fst
        = agg.map Prod.fst := by
  constructor
  · show aggRun (Separator.toDict ts est) agg = _
    induction agg with
    | nil => rfl
    | cons p rest ih =>
      have hcovp : ∀ n ∈ p.2, n ∈ ts.map Prod.fst := hcov p (List.mem_cons_self p rest)
      have hrest : ∀ q ∈ rest, ∀ n ∈ q.2, n ∈ ts.map Prod.fst :=
        fun q hq => hcov q (List.mem_cons_of_mem p hq)
      simp only [aggRun, lookupAll_toDict ts est p.2 hcovp, ih hrest, List.map_cons]
      have hval : (p.2.map (fun n => fun s c l =>
            est s (targetIndex n (ts.map Prod.fst)) c l)).foldl addT3 zero3
          = fun s c l =>
            (p.2.map (fun n => est s (targetIndex n (ts.map Prod.fst)) c l)).sum := by
        funext s c l
        rw [foldl_addT3]
        simp only [zero3, List.map_map, zero_add]
        rfl
      rw [hval]
  · simp

/-- Witness for C4: registry `[vocals, drums]`, aggregate
`[("mix", [vocals, drums])]`. -/
theorem separator_to_dict_aggregation_witness :
    (([tgVocals, tgDrums] : List SepTarget).map Prod.fst).Nodup
    ∧ (∀ p ∈ [("mix", ["vocals", "drums"])], ∀ n ∈ p.2,
        n ∈ ([tgVocals, tgDrums] : List SepTarget).map Prod.fst)
    ∧ (Separator.to_dict [tgVocals, tgDrums] (fun _ j _ _ => (j : ℚ))
          (some [("mix", ["vocals", "drums"])])
        = some ([("mix", ["vocals", "drums"])].map (fun p => (p.1, fun s c l =>
            (p.2.map (fun n => ((fun _ j _ _ => (j : ℚ)) : T4) s
              (targetIndex n (([tgVocals, tgDrums] : List SepTarget).map Prod.fst)) c l)).sum)))
       ∧ (([("mix", ["vocals", "drums"])].map (fun p => (p.1, fun s c l =>
            (p.2.map (fun n => ((fun _ j _ _ => (j : ℚ)) : T4) s
              (targetIndex n (([tgVocals, tgDrums] : List SepTarget).map Prod.fst)) c l)).sum))).map Prod.fst
           = ([("mix", ["vocals", "drums"])] : List (String × List String)).map Prod.fst)) :=
  ⟨by decide, by decide,
    separator_to_dict_aggregation [tgVocals, tgDrums] (fun _ j _ _ => (j : ℚ))
      [("mix", ["vocals", "drums"])] (by decide) (by decide)⟩

theorem dictLookup_eq_none {α : Type} :
    ∀ (ed : List (String × α)) (n : String), n ∉ ed.map Prod.fst → dictLookup ed n = none := by
  intro ed
  induction ed with
  | nil => intro n _; rfl
  | cons e rest ih =>
    intro n hn
    simp only [List.map_cons, List.mem_cons] at hn
    push_neg at hn
    simp only [dictLookup, if_neg hn.1]
    exact ih n hn.2

theorem lookupAll_missing (ed : List (String × T3)) (n : String)
    (hnone : dictLookup ed n = none) :
    ∀ (ns : List String), n ∈ ns → lookupAll ed ns = none := by
  intro ns
  induction ns with
  | nil => intro h; simp at h
  | cons m ns ih =>
    intro hmem
    rcases List.mem_cons.mp hmem with heq | htail
    · subst heq
      simp only [lookupAll, hnone]
    · simp only [lookupAll]
      rcases hlk : dictLookup ed m with _ | t
      · rfl
      · rw [ih htail]

theorem aggRun_missing (ed : List (String × T3)) (p : String × List String)
    (hfail : lookupAll ed p.2 = none) :
    ∀ (agg : List (String × List String)), p ∈ agg → aggRun ed agg = none := by
  intro agg
  induction agg with
  | nil => intro h; simp at h
  | cons q rest ih =>
    intro hmem
    rcases q with ⟨qk, qns⟩
    simp only [aggRun]
    rcases List.mem_cons.mp hmem with heq | htail
    · have hfail2 : lookupAll ed qns = none := by
        rw [heq] at hfail
        exact hfail
      rw [hfail2]
    · rcases hlk : lookupAll ed qns with _ | slices
      · rfl
      · rw [ih htail]

/-- C10: if any aggregation group names a target absent from the registry,
`Separator.to_dict` raises a `KeyError` (modelled as `none`) instead of
returning a mapping. -/
theorem separator_to_dict_missing_key
    (ts : List SepTarget) (est : T4) (agg : List (String × List String))
    (p : String × List String) (n : String)
    (hp : p ∈ agg) (hn : n ∈ p.2) (hmiss : n ∉ ts.map Prod.fst) :
    Separator.to_dict ts est (some agg) = none := by
  have h1 : n ∉ (Separator.toDict ts est).map Prod.fst := by
    have hk : (Separator.toDict ts est).map Prod.fst = ts.map Prod.fst :=
      toDictFrom_keys est ts 0
    rw [hk]
    exact hmiss
  have h2 : dictLookup (Separator.toDict ts est) n = none :=
    dictLookup_eq_none _ n h1
  have h3 : lookupAll (Separator.toDict ts est) p.2 = none :=
    lookupAll_missing _ n h2 p.2 hn
  show aggRun (Separator.toDict ts est) agg = none
  exact aggRun_missing _ p h3 agg hp

/-- Witness for C10: the group `("g", [guitar])` names no registered
target of `[vocals, drums]`. -/
theorem separator_to_dict_missing_key_witness :
    (("g", ["guitar"]) ∈ ([("g", ["guitar"])] : List (String × List String)))
    ∧ "guitar" ∈ ["guitar"]
    ∧ "guitar" ∉ ([tgVocals, tgDrums] : List SepTarget).map Prod.fst
    ∧ Separator.to_dict [tgVocals, tgDrums] (fun _ j _ _ => (j : ℚ))
        (some [("g", ["guitar"])]) = none :=
  ⟨by decide, by decide, by decide,
    separator_to_dict_missing_key [tgVocals, tgDrums] (fun _ j _ _ => (j : ℚ))
      [("g", ["guitar"])] ("g", ["guitar"]) "guitar" (by decide) (by decide) (by decide)⟩

/-! ## Claim C9: freeze semantics (model.py lines 74-79 and 178-183) -/

/-- A torch parameter, reduced to its gradient-tracking flag. -/
structure TorchParam where
  requiresGrad : Bool

/-- The `OpenUnmix` module viewed as torch module state: its parameter
list (encoder/decoder weights, `input_mean`, `input_scale`) and its
`training` flag. -/
structure OpenUnmixModule where
  params : List TorchParam
  training : Bool

/-- `OpenUnmix.freeze` (model.py lines 74-79): `p.requires_grad = False`
for every parameter, then `self.eval()` clears the `training` flag. -/
def OpenUnmixModule.freeze (m : OpenUnmixModule) : OpenUnmixModule :=
  { params := m.params.map (fun _ => { requiresGrad := false }), training := false }

/-- The `Separator` module tree: the registered masking networks
(`nn.ModuleDict`, model.py line 169) and the separator's own `training`
flag. -/
structure SeparatorModule where
  targetModels : List (String × OpenUnmixModule)
  training : Bool

/-- `self.parameters()` of a `Separator`: the parameters of every owned
masking network. -/
def SeparatorModule.parameters (m : SeparatorModule) : List TorchParam :=
  (m.targetModels.map (fun t => t.2.params)).flatten

/-- `Separator.freeze` (model.py lines 178-183): `p.requires_grad = False`
for every parameter of the module tree, then `self.eval()` clears the
`training` flag recursively. -/
def SeparatorModule.freeze (m : SeparatorModule) : SeparatorModule :=
  { targetModels := m.targetModels.map (fun t => (t.1, t.2.freeze)), training := false }

/-- Modelled from the spec: a torch batch-normalization layer uses its
running statistics, rather than per-batch statistics, exactly when its
module is not in training mode (`nn.Module.eval`). -/
def batchNormUsesRunningStats (training : Bool) : Bool := !training

/-- C9: after `freeze()`, every parameter of the module tree (for a
`Separator`, those of all owned masking networks) has gradient tracking
disabled, and the module — every owned masking network included — is in
evaluation mode, so batch normalization uses running statistics. -/
theorem freeze_semantics (m : OpenUnmixModule) (sm : SeparatorModule) :
    (m.freeze.params.all fun p => !p.requiresGrad) = true
    ∧ m.freeze.training = false
    ∧ batchNormUsesRunningStats m.freeze.training = true
    ∧ (sm.freeze.parameters.all fun p => !p.requiresGrad) = true
    ∧ sm.freeze.training = false
    ∧ (sm.freeze.targetModels.all fun t =>
        !t.2.training && batchNormUsesRunningStats t.2.training
          && (t.2.params.all fun p => !p.requiresGrad)) = true := by
  refine ⟨?_, rfl, rfl, ?_, rfl, ?_⟩
  · simp [OpenUnmixModule.freeze, List.all_eq_true]
  · simp [SeparatorModule.freeze, SeparatorModule.parameters, OpenUnmixModule.freeze,
      List.all_eq_true, List.mem_flatten]
    intro p l t htm hl hp
    subst hl
    simp_all
  · simp [SeparatorModule.freeze, OpenUnmixModule.freeze, batchNormUsesRunningStats,
      List.all_eq_true]

/-! ## OpenUnmix encoder-decoder shapes (model.py lines 44-59, 81-115)

Input to the encoder is the reshaped `(S, C, T, F, M)` tensor of model.py
line 103 (`T` frames, `F = nb_bins` frequency bins, `M` sub-bins); the
kernels `(5, 11, 42)` and `(5, 11, 22)` with strides `(1, 1, 3)` act on
`(T, F, M)`, and the 5-D output is permuted back to `(S, C, F, T, M)`
(line 111). -/

/-- Output size of a torch `Conv3d` dimension with padding 0 and
dilation 1: `(n - k) / s + 1`; torch raises unless `n ≥ k`. -/
def conv3dOut (n k s : ℕ) : ℕ := (n - k) / s + 1

/-- Output size of a torch `ConvTranspose3d` dimension with padding 0 and
dilation 1: `(n - 1) * s + k + outputPadding`. -/
def convT3dOut (n k s op : ℕ) : ℕ := (n - 1) * s + k + op

/-- Shape of `OpenUnmix.forward` on an input of shape `(S, C, F, T, M)`
for a module built with `nb_channels = nbCh` and `nb_bins = nbBins`:
`none` when torch would raise (normalization broadcast needs `F = nbBins`,
`Conv3d` needs matching channels and a nonnegative spatial extent at each
stage), otherwise the `(S, C, F, T, M)` shape after the final permute
(model.py line 111). -/
def OpenUnmix.forwardShape (nbCh nbBins S C F T M : ℕ) : Option (ℕ × ℕ × ℕ × ℕ × ℕ) :=
  if F = nbBins ∧ C = nbCh then
    if 5 ≤ T ∧ 11 ≤ F ∧ 42 ≤ M then
      if 5 ≤ conv3dOut T 5 1 ∧ 11 ≤ conv3dOut F 11 1 ∧ 22 ≤ conv3dOut M 42 3 then
        some (S, nbCh,
          convT3dOut (convT3dOut (conv3dOut (conv3dOut F 11 1) 11 1) 11 1 0) 11 1 0,
          convT3dOut (convT3dOut (conv3dOut (conv3dOut T 5 1) 5 1) 5 1 0) 5 1 0,
          convT3dOut (convT3dOut (conv3dOut (conv3dOut M 42 3) 22 3) 22 3 2) 42 3 2)
      else none
    else none
  else none

/-- The encoder-decoder accepts the input: `OpenUnmix.forward` does not
raise on a `(S, C, F, T, M)` input. -/
def OpenUnmix.accepts (nbCh nbBins S C F T M : ℕ) : Prop :=
  (OpenUnmix.forwardShape nbCh nbBins S C F T M).isSome = true

instance (nbCh nbBins S C F T M : ℕ) : Decidable (OpenUnmix.accepts nbCh nbBins S C F T M) := by
  unfold OpenUnmix.accepts
  infer_instance

/-- C5, counterexample: the input shape `(1, 2, 21, 9, 105)` (with
`nb_channels = 2`, `nb_bins = 21`) is accepted by the encoder-decoder, yet
`OpenUnmix.forward` returns shape `(1, 2, 21, 9, 113)`: the output
padding `(0, 0, 2)` does not restore the strided sub-bin dimension. -/
theorem openunmix_shape_not_preserved :
    OpenUnmix.accepts 2 21 1 2 21 9 105
    ∧ OpenUnmix.forwardShape 2 21 1 2 21 9 105 = some (1, 2, 21, 9, 113)
    ∧ ((1, 2, 21, 9, 113) : ℕ × ℕ × ℕ × ℕ × ℕ) ≠ (1, 2, 21, 9, 105) := by
  refine ⟨?_, ?_, ?_⟩ <;> decide

/-- C5, amended: for every accepted input `(S, C, F, T, M)` whose sub-bin
count satisfies `M % 9 = 5`, `OpenUnmix.forward` returns exactly the input
shape `(S, C, F, T, M)`; the frames and bins dimensions are always
restored, and the extra condition on `M` is exactly what the strided
sub-bin dimension needs. -/
theorem openunmix_shape_roundtrip
    (nbCh nbBins S C F T M : ℕ)
    (hacc : OpenUnmix.accepts nbCh nbBins S C F T M)
    (hM : M % 9 = 5) :
    OpenUnmix.forwardShape nbCh nbBins S C F T M = some (S, C, F, T, M) := by
  unfold OpenUnmix.accepts at hacc
  unfold OpenUnmix.forwardShape at hacc ⊢
  by_cases h1 : F = nbBins ∧ C = nbCh
  · by_cases h2 : 5 ≤ T ∧ 11 ≤ F ∧ 42 ≤ M
    · by_cases h3 : 5 ≤ conv3dOut T 5 1 ∧ 11 ≤ conv3dOut F 11 1 ∧ 22 ≤ conv3dOut M 42 3
      · rw [if_pos h1, if_pos h2, if_pos h3]
        obtain ⟨hF, hC⟩ := h1
        obtain ⟨hT5, hF11, hM42⟩ := h2
        obtain ⟨hT2, hF2, hM2⟩ := h3
        subst hF
        subst hC
        simp only [conv3dOut, convT3dOut] at hT2 hF2 hM2 ⊢
        have hM105 : 105 ≤ M := by
          have h22 : 21 ≤ (M - 42) / 3 := by omega
          have := Nat.div_mul_le_self (M - 42) 3
          have h63 : 63 ≤ M - 42 := by
            calc 63 = 21 * 3 := by norm_num
            _ ≤ (M - 42) / 3 * 3 := Nat.mul_le_mul_right 3 h22
            _ ≤ M - 42 := Nat.div_mul_le_self (M - 42) 3
          omega
        refine congrArg some ?_
        refine Prod.ext rfl (Prod.ext rfl (Prod.ext ?_ (Prod.ext ?_ ?_)))
        · simp only []
          omega
        · simp only []
          omega
        · simp only []
          omega
      · rw [if_pos h1, if_pos h2, if_neg h3] at hacc
        simp at hacc
    · rw [if_pos h1, if_neg h2] at hacc
      simp at hacc
  · rw [if_neg h1] at hacc
    simp at hacc

/-- Witness for the amended C5 at `M = 113`. -/
theorem openunmix_shape_roundtrip_witness :
    OpenUnmix.accepts 2 21 1 2 21 9 113
    ∧ 113 % 9 = 5
    ∧ OpenUnmix.forwardShape 2 21 1 2 21 9 113 = some (1, 2, 21, 9, 113) :=
  ⟨by decide, by decide,
    openunmix_shape_roundtrip 2 21 1 2 21 9 113 (by decide) (by decide)⟩

/-! ## OpenUnmix forward, value level (model.py lines 28-72, 81-115)

The learned layers (`Conv3d`, `ReLU`, `BatchNorm3d`, `ConvTranspose3d`)
are torch primitives closed over their weights; they are embedded as
abstract tensor transformers, while every reshape, permute and the
normalization of `forward` is embedded exactly by flat-index
arithmetic. -/

/-- `x.reshape(nb_samples, nb_channels, nb_f_bins, -1)` (model.py
line 94): collapse frames and sub-bins. -/
def OpenUnmix.reshapeTM (M : ℕ) (x : T5) : T4 :=
  fun s c f u => x s c f (u / M) (u % M)

/-- `x.permute(3, 0, 1, 2)` (model.py line 97). -/
def OpenUnmix.permuteIn (x : T4) : T4 :=
  fun u s c f => x s c f u

/-- The normalization of model.py lines 100-101:
`x = x + input_mean[:nb_bins]; x = x * input_scale[:nb_bins]`, broadcast
along the last (frequency-bin) axis. -/
def OpenUnmix.normalize (mean scale : ℕ → ℚ) (x : T4) : T4 :=
  fun u s c f => (x u s c f + mean f) * scale f

/-- `x.reshape(nb_samples, nb_channels, nb_frames, nb_f_bins, nb_m_bins)`
(model.py line 103), reading the permuted `(T*M, S, C, F)` layout at the
flat row-major position of `(s, c, t, f, m)`. -/
def OpenUnmix.reshapeBack (S C T F M : ℕ) (x : T4) : T5 :=
  fun s c t f m =>
    x (((((s * C + c) * T + t) * F + f) * M + m) / F / C / S)
      (((((s * C + c) * T + t) * F + f) * M + m) / F / C % S)
      (((((s * C + c) * T + t) * F + f) * M + m) / F % C)
      (((((s * C + c) * T + t) * F + f) * M + m) % F)

/-- Sequential application of the encoder or decoder layer list
(model.py lines 105-109). -/
def OpenUnmix.runLayers (ls : List (T5 → T5)) (x : T5) : T5 :=
  ls.foldl (fun a l => l a) x

/-- `x.permute(0, 1, 3, 2, 4)` (model.py line 111): back to the canonical
`(S, C, F, T, M)` layout. -/
def OpenUnmix.permuteOut (x : T5) : T5 :=
  fun s c f t m => x s c t f m

/-- The stored `input_mean` parameter (model.py lines 61-64, 71): the
negated statistics mean when given, else `torch.zeros(nb_bins)`. -/
def OpenUnmix.inputMeanOf : Option (ℕ → ℚ) → (ℕ → ℚ)
  | some m => fun i => -(m i)
  | none => fun _ => 0

/-- The stored `input_scale` parameter (model.py lines 66-69, 72): the
reciprocal statistics scale when given, else `torch.ones(nb_bins)`. -/
def OpenUnmix.inputScaleOf : Option (ℕ → ℚ) → (ℕ → ℚ)
  | some sc => fun i => 1 / sc i
  | none => fun _ => 1

/-- `OpenUnmix.forward` (model.py lines 81-115), written step by step as
in the source: value-copy of the mixture (line 90, unused because the
mask multiply of line 114 is commented out), reshape (line 94), permute
(line 97), add-then-multiply normalization (lines 100-101), reshape (line
103), encoder and decoder loops (lines 105-109), final permute and return
of the raw decoder output (lines 111-115). -/
def OpenUnmix.forward (S C T F M : ℕ) (mean scale : ℕ → ℚ)
    (enc dec : List (T5 → T5)) (x : T5) : T5 :=
  let x1 : T4 := fun s c f u => x s c f (u / M) (u % M)
  let x2 : T4 := fun u s c f => x1 s c f u
  let x3 : T4 := fun u s c f => (x2 u s c f + mean f) * scale f
  let x4 : T5 := fun s c t f m =>
    x3 (((((s * C + c) * T + t) * F + f) * M + m) / F / C / S)
       (((((s * C + c) * T + t) * F + f) * M + m) / F / C % S)
       (((((s * C + c) * T + t) * F + f) * M + m) / F % C)
       (((((s * C + c) * T + t) * F + f) * M + m) % F)
  let x5 := dec.foldl (fun a l => l a) (enc.foldl (fun a l => l a) x4)
  fun s c f t m => x5 s c t f m

/-- The returned quantity as the spec describes it: the raw decoder
output after the final permutation (no mask multiply). -/
def OpenUnmix.directEstimate (S C T F M : ℕ) (mean scale : ℕ → ℚ)
    (enc dec : List (T5 → T5)) (x : T5) : T5 :=
  OpenUnmix.permuteOut
    (OpenUnmix.runLayers dec
      (OpenUnmix.runLayers enc
        (OpenUnmix.reshapeBack S C T F M
          (OpenUnmix.normalize mean scale
            (OpenUnmix.permuteIn (OpenUnmix.reshapeTM M x))))))

/-- The disabled alternative of model.py line 114 (`return x * mix`): the
decoder output multiplied elementwise by the mixture input. -/
def OpenUnmix.maskedVariant (S C T F M : ℕ) (mean scale : ℕ → ℚ)
    (enc dec : List (T5 → T5)) (x : T5) : T5 :=
  fun s c f t m =>
    OpenUnmix.directEstimate S C T F M mean scale enc dec x s c f t m * x s c f t m

/-- A constant spectrogram used in the C6 theorem's separating instance. -/
def constTwo : T5 := fun _ _ _ _ _ => 2

/-- C6: `OpenUnmix.forward` returns the raw decoder output after the
final permutation, for every configuration and input — and this is not
the mask-multiplied variant: on a concrete instance the two differ, so
the returned tensor is a direct estimate, not a mask applied to the
mixture. -/
theorem openunmix_forward_direct_estimate :
    (∀ (S C T F M : ℕ) (mean scale : ℕ → ℚ) (enc dec : List (T5 → T5)) (x : T5),
      OpenUnmix.forward S C T F M mean scale enc dec x
        = OpenUnmix.directEstimate S C T F M mean scale enc dec x)
    ∧ OpenUnmix.forward 1 1 1 1 1 (fun _ => 0) (fun _ => 1) [] [] constTwo 0 0 0 0 0
        ≠ OpenUnmix.maskedVariant 1 1 1 1 1 (fun _ => 0) (fun _ => 1) [] [] constTwo 0 0 0 0 0 := by
  constructor
  · intro S C T F M mean scale enc dec x
    rfl
  · simp only [OpenUnmix.forward, OpenUnmix.maskedVariant, OpenUnmix.directEstimate,
      OpenUnmix.permuteOut, OpenUnmix.runLayers, OpenUnmix.reshapeBack, OpenUnmix.normalize,
      OpenUnmix.permuteIn, OpenUnmix.reshapeTM, constTwo, List.foldl_nil]
    norm_num

/-- C7: the stored statistics are the negated mean and the reciprocal
scale, so the add-then-multiply normalization of `forward` standardizes a
value of bin `f` as `(x - m f) / s f`; with the statistics omitted the
stored vectors are zeros and ones and the normalization is the identity;
and `forward` reads only the first `nb_bins` entries of the stored
vectors (its output is unchanged by any modification beyond them). -/
theorem openunmix_normalization :
    (∀ (m sc : ℕ → ℚ) (v : T4) (u a c f : ℕ), sc f ≠ 0 →
      OpenUnmix.normalize (OpenUnmix.inputMeanOf (some m))
          (OpenUnmix.inputScaleOf (some sc)) v u a c f
        = (v u a c f - m f) / sc f)
    ∧ (∀ v : T4,
      OpenUnmix.normalize (OpenUnmix.inputMeanOf none) (OpenUnmix.inputScaleOf none) v = v)
    ∧ (∀ (S C T F M nbBins : ℕ) (mean mean2 scale scale2 : ℕ → ℚ)
        (enc dec : List (T5 → T5)) (x : T5),
      F = nbBins → 0 < nbBins →
      (∀ i, i < nbBins → mean i = mean2 i) →
      (∀ i, i < nbBins → scale i = scale2 i) →
      OpenUnmix.forward S C T F M mean scale enc dec x
        = OpenUnmix.forward S C T F M mean2 scale2 enc dec x) := by
  refine ⟨?_, ?_, ?_⟩
  · intro m sc v u a c f hsc
    simp only [OpenUnmix.normalize, OpenUnmix.inputMeanOf, OpenUnmix.inputScaleOf]
    field_simp
    ring
  · intro v
    funext u s c f
    simp [OpenUnmix.normalize, OpenUnmix.inputMeanOf, OpenUnmix.inputScaleOf]
  · intro S C T F M nbBins mean mean2 scale scale2 enc dec x hF hpos hmean hscale
    subst hF
    have key : OpenUnmix.reshapeBack S C T F M
        (OpenUnmix.normalize mean scale (OpenUnmix.permuteIn (OpenUnmix.reshapeTM M x)))
        = OpenUnmix.reshapeBack S C T F M
          (OpenUnmix.normalize mean2 scale2 (OpenUnmix.permuteIn (OpenUnmix.reshapeTM M x))) := by
      funext s c t f m
      simp only [OpenUnmix.reshapeBack, OpenUnmix.normalize]
      have hlt : ((((s * C + c) * T + t) * F + f) * M + m) % F < F := Nat.mod_lt _ (by omega)
      rw [hmean _ hlt, hscale _ hlt]
    show OpenUnmix.directEstimate S C T F M mean scale enc dec x
        = OpenUnmix.directEstimate S C T F M mean2 scale2 enc dec x
    unfold OpenUnmix.directEstimate
    rw [key]

/-- Witness for C7: statistics `m = 3`, `s = 2` at value 7; identity
defaults at a constant tensor; and two statistics vectors agreeing on the
single configured bin but differing beyond it. -/
theorem openunmix_normalization_witness :
    ((2:ℚ) ≠ 0
     ∧ OpenUnmix.normalize (OpenUnmix.inputMeanOf (some (fun _ => 3)))
         (OpenUnmix.inputScaleOf (some (fun _ => 2))) (fun _ _ _ _ => 7) 0 0 0 0
       = ((7:ℚ) - 3) / 2)
    ∧ OpenUnmix.normalize (OpenUnmix.inputMeanOf none) (OpenUnmix.inputScaleOf none)
        (fun _ _ _ _ => (5:ℚ)) = (fun _ _ _ _ => (5:ℚ))
    ∧ OpenUnmix.forward 1 1 1 1 1 (fun i => if i = 0 then 0 else 5)
        (fun i => if i = 0 then 1 else 7) [] [] constTwo
      = OpenUnmix.forward 1 1 1 1 1 (fun _ => 0) (fun _ => 1) [] [] constTwo := by
  refine ⟨⟨by norm_num, ?_⟩, ?_, ?_⟩
  · exact openunmix_normalization.1 (fun _ => 3) (fun _ => 2) (fun _ _ _ _ => 7) 0 0 0 0
      (by norm_num)
  · exact openunmix_normalization.2.1 (fun _ _ _ _ => (5:ℚ))
  · exact openunmix_normalization.2.2 1 1 1 1 1 1 (fun i => if i = 0 then 0 else 5)
      (fun _ => 0) (fun i => if i = 0 then 1 else 7) (fun _ => 1) [] [] constTwo rfl
      (by decide)
      (by intro i hi
          have hz : i = 0 := by omega
          subst hz
          rfl)
      (by intro i hi
          have hz : i = 0 := by omega
          subst hz
          rfl)
